import Mathlib

set_option linter.unusedSectionVars false

/-!
Shallow embedding of `core/layers.py` (forward-computation layers of a
show-attend-and-tell image-captioning network).

Tensors of shape (N, M) are modelled as functions `Fin N → Fin M → R` over a
linear ordered field `R`; three-dimensional tensors (N, L, D) as
`Fin N → Fin L → Fin D → R`.  The transcendental primitives of the tensor
library (`tf.nn.sigmoid`, `tf.nn.tanh`, `tf.exp`, `tf.log`) are abstract
function parameters, so every definition stays computable; `tf.nn.relu` is
`max · 0` and `tf.nn.softmax` is embedded from its defining formula.
TensorFlow's row-major `reshape` between (N, L, D) and (N*L, D) is embedded by
explicit index arithmetic (`flattenIdx`, `unflatten1`, `unflatten2`).
`tf.nn.dropout(h, keep_prob)` draws a random keep mask; the draw is made
explicit as a boolean mask argument, and a kept entry is scaled by
`1 / keep_prob` as the library does.
-/

namespace Layers

variable {R : Type} [LinearOrderedField R]

/-- `tf.matmul` on (n, k) and (k, m) matrices. -/
def matmul {n k m : ℕ} (A : Fin n → Fin k → R) (B : Fin k → Fin m → R) :
    Fin n → Fin m → R :=
  fun i j => ∑ x, A i x * B x j

/-- `tf.nn.relu`. -/
def relu (x : R) : R := max x 0

/-- `tf.nn.softmax` applied to one row of length L. -/
def softmaxRow {L : ℕ} (exp : R → R) (v : Fin L → R) : Fin L → R :=
  fun i => exp (v i) / ∑ j, exp (v j)

/-- Row-major flattening of the index pair (n, l) into (N*L,). -/
def flattenIdx {N L : ℕ} (n : Fin N) (l : Fin L) : Fin (N * L) :=
  ⟨n.val * L + l.val, by
    have h1 : n.val * L + l.val < (n.val + 1) * L := by
      rw [Nat.succ_mul]
      exact Nat.add_lt_add_left l.isLt _
    exact lt_of_lt_of_le h1 (Nat.mul_le_mul_right L n.isLt)⟩

/-- First component of the row-major unflattening of p : Fin (N*L). -/
def unflatten1 {N L : ℕ} (p : Fin (N * L)) : Fin N :=
  ⟨p.val / L, by
    have hL : 0 < L := by
      rcases Nat.eq_zero_or_pos L with h | h
      · exact absurd p.isLt (by simp [h])
      · exact h
    exact (Nat.div_lt_iff_lt_mul hL).mpr p.isLt⟩

/-- Second component of the row-major unflattening of p : Fin (N*L). -/
def unflatten2 {N L : ℕ} (p : Fin (N * L)) : Fin L :=
  ⟨p.val % L, by
    have hL : 0 < L := by
      rcases Nat.eq_zero_or_pos L with h | h
      · exact absurd p.isLt (by simp [h])
      · exact h
    exact Nat.mod_lt _ hL⟩

theorem unflatten1_flattenIdx {N L : ℕ} (n : Fin N) (l : Fin L) :
    unflatten1 (flattenIdx n l) = n := by
  apply Fin.ext
  show (n.val * L + l.val) / L = n.val
  rw [mul_comm n.val L, Nat.mul_add_div (by
    rcases Nat.eq_zero_or_pos L with h | h
    · exact absurd l.isLt (by simp [h])
    · exact h), Nat.div_eq_of_lt l.isLt, Nat.add_zero]

theorem unflatten2_flattenIdx {N L : ℕ} (n : Fin N) (l : Fin L) :
    unflatten2 (flattenIdx n l) = l := by
  apply Fin.ext
  show (n.val * L + l.val) % L = l.val
  rw [mul_comm n.val L, Nat.mul_add_mod, Nat.mod_eq_of_lt l.isLt]

/-- `affine_forward`: out = X·W + b with the bias broadcast over rows. -/
def affine_forward {N H V : ℕ} (X : Fin N → Fin H → R) (W : Fin H → Fin V → R)
    (b : Fin V → R) : Fin N → Fin V → R :=
  fun n v => matmul X W n v + b v

/-- `affine_sigmoid_forward`: sigmoid applied to `affine_forward`. -/
def affine_sigmoid_forward {N H V : ℕ} (sigmoid : R → R) (X : Fin N → Fin H → R)
    (W : Fin H → Fin V → R) (b : Fin V → R) : Fin N → Fin V → R :=
  fun n v => sigmoid (affine_forward X W b n v)

/-- `affine_relu_forward`: relu applied to `affine_forward`. -/
def affine_relu_forward {N H V : ℕ} (X : Fin N → Fin H → R)
    (W : Fin H → Fin V → R) (b : Fin V → R) : Fin N → Fin V → R :=
  fun n v => relu (affine_forward X W b n v)

/-- `affine_tanh_forward`: tanh applied to `affine_forward`. -/
def affine_tanh_forward {N H V : ℕ} (tanh : R → R) (X : Fin N → Fin H → R)
    (W : Fin H → Fin V → R) (b : Fin V → R) : Fin N → Fin V → R :=
  fun n v => tanh (affine_forward X W b n v)

/-- `tf.nn.dropout(h, keep)`: each entry is kept (and scaled by 1/keep)
or zeroed according to the random keep mask, made explicit here. -/
def dropout {N H : ℕ} (keep : R) (mask : Fin N → Fin H → Bool)
    (h : Fin N → Fin H → R) : Fin N → Fin H → R :=
  fun n j => if mask n j then h n j / keep else 0

/-- `init_lstm`: affine+relu, optional dropout with keep probability 1/2,
then affine+tanh.  The random draw of the dropout mask is explicit. -/
def init_lstm {N D H K : ℕ} (tanh : R → R) (X : Fin N → Fin D → R)
    (W1 : Fin D → Fin H → R) (b1 : Fin H → R) (W2 : Fin H → Fin K → R)
    (b2 : Fin K → R) (use_dropout : Bool) (dropMask : Fin N → Fin H → Bool) :
    Fin N → Fin K → R :=
  let h := affine_relu_forward X W1 b1
  let h2 := if use_dropout then dropout (1 / 2 : R) dropMask h else h
  affine_tanh_forward tanh h2 W2 b2

/-- `word_embedding_forward` on an index tensor of shape (N, T):
`tf.nn.embedding_lookup` gathers rows of the embedding matrix. -/
def word_embedding_forward {N T V M : ℕ} (X : Fin N → Fin T → Fin V)
    (W_embed : Fin V → Fin M → R) : Fin N → Fin T → Fin M → R :=
  fun n t m => W_embed (X n t) m

/-- `word_embedding_forward` on an index tensor of shape (N,). -/
def word_embedding_forward1 {N V M : ℕ} (X : Fin N → Fin V)
    (W_embed : Fin V → Fin M → R) : Fin N → Fin M → R :=
  fun n m => W_embed (X n) m

/-- `project_feature`: reshape (N, L, D) to (N*L, D), matmul with W (D, D),
reshape back to (N, L, D). -/
def project_feature {N L D : ℕ} (X : Fin N → Fin L → Fin D → R)
    (W : Fin D → Fin D → R) : Fin N → Fin L → Fin D → R :=
  let Xflat : Fin (N * L) → Fin D → R := fun p d => X (unflatten1 p) (unflatten2 p) d
  let out := matmul Xflat W
  fun n l d => out (flattenIdx n l) d

/-- `attention_forward`: project the hidden state, broadcast-add to the
projected features with bias, relu, score each position with W_att via a
reshape to (N*L, D), softmax the scores row-wise, and take the
alpha-weighted sum of the features. -/
def attention_forward {N L D H : ℕ} (exp : R → R) (X : Fin N → Fin L → Fin D → R)
    (X_proj : Fin N → Fin L → Fin D → R) (prev_h : Fin N → Fin H → R)
    (W_proj_h : Fin H → Fin D → R) (b_proj : Fin D → R)
    (W_att : Fin D → Fin 1 → R) :
    (Fin N → Fin D → R) × (Fin N → Fin L → R) :=
  let h_proj := matmul prev_h W_proj_h
  let hidden : Fin N → Fin L → Fin D → R :=
    fun n l d => relu (X_proj n l d + h_proj n d + b_proj d)
  let hidden_flat : Fin (N * L) → Fin D → R :=
    fun p d => hidden (unflatten1 p) (unflatten2 p) d
  let out := matmul hidden_flat W_att
  let out2 : Fin N → Fin L → R := fun n l => out (flattenIdx n l) 0
  let alpha : Fin N → Fin L → R := fun n => softmaxRow exp (out2 n)
  let context : Fin N → Fin D → R := fun n d => ∑ l, X n l d * alpha n l
  (context, alpha)

/-- `rnn_step_forward` exactly as written in the source: the bias `b` is
added OUTSIDE the tanh (`tf.nn.tanh(...) + b`). -/
def rnn_step_forward {N M D H : ℕ} (tanh : R → R) (X : Fin N → Fin M → R)
    (prev_h : Fin N → Fin H → R) (context : Fin N → Fin D → R)
    (Wx : Fin M → Fin H → R) (Wh : Fin H → Fin H → R) (Wz : Fin D → Fin H → R)
    (b : Fin H → R) : Fin N → Fin H → R :=
  fun n j =>
    tanh (matmul X Wx n j + matmul prev_h Wh n j + matmul context Wz n j) + b j

/-- The vanilla RNN hidden-state update as the specification states it,
with the bias inside the tanh; kept separate to compare with the code. -/
def rnn_step_spec_formula {N M D H : ℕ} (tanh : R → R) (X : Fin N → Fin M → R)
    (prev_h : Fin N → Fin H → R) (context : Fin N → Fin D → R)
    (Wx : Fin M → Fin H → R) (Wh : Fin H → Fin H → R) (Wz : Fin D → Fin H → R)
    (b : Fin H → R) : Fin N → Fin H → R :=
  fun n j =>
    tanh (matmul X Wx n j + matmul prev_h Wh n j + matmul context Wz n j + b j)

/-- Column index of block q (q < 4), column j, after `tf.split(1, 4, a)`
on a matrix with 4*H columns. -/
def splitIdx {H : ℕ} (q : ℕ) (hq : q < 4) (j : Fin H) : Fin (4 * H) :=
  ⟨q * H + j.val, by
    have h1 : q * H + j.val < (q + 1) * H := by
      rw [Nat.succ_mul]
      exact Nat.add_lt_add_left j.isLt _
    exact lt_of_lt_of_le h1 (Nat.mul_le_mul_right H hq)⟩

/-- `lstm_step_forward`: gate pre-activations a = X·Wx + prev_h·Wh +
context·Wz + b, split column-wise into i, f, o, g blocks; standard LSTM
cell and hidden updates. -/
def lstm_step_forward {N M D H : ℕ} (sigmoid tanh : R → R)
    (X : Fin N → Fin M → R) (prev_h : Fin N → Fin H → R)
    (prev_c : Fin N → Fin H → R) (context : Fin N → Fin D → R)
    (Wx : Fin M → Fin (4 * H) → R) (Wh : Fin H → Fin (4 * H) → R)
    (Wz : Fin D → Fin (4 * H) → R) (b : Fin (4 * H) → R) :
    (Fin N → Fin H → R) × (Fin N → Fin H → R) :=
  let a : Fin N → Fin (4 * H) → R := fun n j =>
    matmul X Wx n j + matmul prev_h Wh n j + matmul context Wz n j + b j
  let i : Fin N → Fin H → R := fun n j => sigmoid (a n (splitIdx 0 (by omega) j))
  let f : Fin N → Fin H → R := fun n j => sigmoid (a n (splitIdx 1 (by omega) j))
  let o : Fin N → Fin H → R := fun n j => sigmoid (a n (splitIdx 2 (by omega) j))
  let g : Fin N → Fin H → R := fun n j => tanh (a n (splitIdx 3 (by omega) j))
  let c : Fin N → Fin H → R := fun n j => f n j * prev_c n j + i n j * g n j
  let h : Fin N → Fin H → R := fun n j => o n j * tanh (c n j)
  (h, c)

/-- `tf.one_hot(y, V, on_value=1)` cast to float: 1 at index y, 0 elsewhere. -/
def one_hot {V : ℕ} (y : Fin V) : Fin V → R :=
  fun j => if j = y then 1 else 0

/-- `tf.nn.softmax_cross_entropy_with_logits(logits, labels)` for one row. -/
def softmax_cross_entropy_with_logits {V : ℕ} (exp log : R → R)
    (logits labels : Fin V → R) : R :=
  -∑ j, labels j * log (softmaxRow exp logits j)

/-- `softmax_loss`: per-row cross entropy against the one-hot ground truth,
multiplied by the float cast of the mask, summed. -/
def softmax_loss {N V : ℕ} (exp log : R → R) (X : Fin N → Fin V → R)
    (y : Fin N → Fin V) (mask : Fin N → Bool) : R :=
  ∑ i, softmax_cross_entropy_with_logits exp log (X i) (one_hot (y i)) *
    (if mask i then (1 : R) else 0)

/-- Helper: cross entropy of a one-hot label picks out the label's index. -/
theorem xent_one_hot (exp log : R → R) {V : ℕ} (v : Fin V → R) (y : Fin V) :
    softmax_cross_entropy_with_logits exp log v (one_hot y) =
      -(log (softmaxRow exp v y)) := by
  unfold softmax_cross_entropy_with_logits one_hot
  rw [neg_inj]
  simp [ite_mul, Finset.sum_ite_eq']

/-- Helper: the context output of attention_forward is the alpha-weighted
sum of the feature vectors. -/
theorem attention_context_apply (exp : R → R) {N L D H : ℕ}
    (X X_proj : Fin N → Fin L → Fin D → R) (prev_h : Fin N → Fin H → R)
    (W_proj_h : Fin H → Fin D → R) (b_proj : Fin D → R)
    (W_att : Fin D → Fin 1 → R) (n : Fin N) (d : Fin D) :
    (attention_forward exp X X_proj prev_h W_proj_h b_proj W_att).1 n d =
      ∑ l, (attention_forward exp X X_proj prev_h W_proj_h b_proj W_att).2 n l *
        X n l d := by
  simp only [attention_forward]
  exact Finset.sum_congr rfl fun _ _ => mul_comm _ _

/-- C7: affine_forward returns X·W + b with the bias broadcast across rows,
and affine_sigmoid_forward, affine_relu_forward, affine_tanh_forward apply
sigmoid, relu, tanh elementwise to that same affine result. -/
theorem affine_forward_spec (sigmoid tanh : R → R) {N H V : ℕ}
    (X : Fin N → Fin H → R) (W : Fin H → Fin V → R) (b : Fin V → R)
    (n : Fin N) (v : Fin V) :
    affine_forward X W b n v = (∑ k, X n k * W k v) + b v ∧
    affine_sigmoid_forward sigmoid X W b n v = sigmoid ((∑ k, X n k * W k v) + b v) ∧
    affine_relu_forward X W b n v = relu ((∑ k, X n k * W k v) + b v) ∧
    affine_tanh_forward tanh X W b n v = tanh ((∑ k, X n k * W k v) + b v) :=
  ⟨rfl, rfl, rfl, rfl⟩

/-- C6: word_embedding_forward returns the looked-up rows of the embedding
matrix, for an index tensor of shape (N, T) and of shape (N,). -/
theorem word_embedding_forward_spec {N T V M : ℕ} (X : Fin N → Fin T → Fin V)
    (X1 : Fin N → Fin V) (W_embed : Fin V → Fin M → R) (n : Fin N) (t : Fin T)
    (m : Fin M) :
    word_embedding_forward X W_embed n t m = W_embed (X n t) m ∧
    word_embedding_forward1 X1 W_embed n m = W_embed (X1 n) m :=
  ⟨rfl, rfl⟩

/-- C8: project_feature projects each of the L positions independently:
out[n, l] = X[n, l]·W. -/
theorem project_feature_spec {N L D : ℕ} (X : Fin N → Fin L → Fin D → R)
    (W : Fin D → Fin D → R) (n : Fin N) (l : Fin L) (d : Fin D) :
    project_feature X W n l d = ∑ k, X n l k * W k d := by
  simp [project_feature, matmul, unflatten1_flattenIdx, unflatten2_flattenIdx]

/-- C1: lstm_step_forward computes the standard LSTM cell update: the gate
pre-activations a = X·Wx + prev_h·Wh + context·Wz + b are split column-wise
into four equal blocks i, f, o, g; c = f ⊙ prev_c + i ⊙ g and
h = o ⊙ tanh(c). -/
theorem lstm_step_forward_spec (sigmoid tanh : R → R) {N M D H : ℕ}
    (X : Fin N → Fin M → R) (prev_h prev_c : Fin N → Fin H → R)
    (context : Fin N → Fin D → R) (Wx : Fin M → Fin (4 * H) → R)
    (Wh : Fin H → Fin (4 * H) → R) (Wz : Fin D → Fin (4 * H) → R)
    (b : Fin (4 * H) → R) (n : Fin N) (j : Fin H) :
    (lstm_step_forward sigmoid tanh X prev_h prev_c context Wx Wh Wz b).2 n j =
      sigmoid ((∑ x, X n x * Wx x (splitIdx 1 (by omega) j)) +
          (∑ x, prev_h n x * Wh x (splitIdx 1 (by omega) j)) +
          (∑ x, context n x * Wz x (splitIdx 1 (by omega) j)) +
          b (splitIdx 1 (by omega) j)) * prev_c n j +
        sigmoid ((∑ x, X n x * Wx x (splitIdx 0 (by omega) j)) +
          (∑ x, prev_h n x * Wh x (splitIdx 0 (by omega) j)) +
          (∑ x, context n x * Wz x (splitIdx 0 (by omega) j)) +
          b (splitIdx 0 (by omega) j)) *
        tanh ((∑ x, X n x * Wx x (splitIdx 3 (by omega) j)) +
          (∑ x, prev_h n x * Wh x (splitIdx 3 (by omega) j)) +
          (∑ x, context n x * Wz x (splitIdx 3 (by omega) j)) +
          b (splitIdx 3 (by omega) j)) ∧
    (lstm_step_forward sigmoid tanh X prev_h prev_c context Wx Wh Wz b).1 n j =
      sigmoid ((∑ x, X n x * Wx x (splitIdx 2 (by omega) j)) +
          (∑ x, prev_h n x * Wh x (splitIdx 2 (by omega) j)) +
          (∑ x, context n x * Wz x (splitIdx 2 (by omega) j)) +
          b (splitIdx 2 (by omega) j)) *
        tanh ((lstm_step_forward sigmoid tanh X prev_h prev_c context Wx Wh Wz b).2 n j) :=
  ⟨rfl, rfl⟩

/-- C4: at a concrete input the code returns tanh(0) + 1 = 1 because the
bias is added outside the tanh, while the specified vanilla RNN update
tanh(0 + 1) returns 1/2 for the same bounded nonlinearity x / (1 + |x|). -/
theorem rnn_step_forward_bias_outside :
    rnn_step_forward (R := ℚ) (N := 1) (M := 1) (D := 1) (H := 1)
        (fun x => x / (1 + |x|)) (fun _ _ => 0) (fun _ _ => 0) (fun _ _ => 0)
        (fun _ _ => 0) (fun _ _ => 0) (fun _ _ => 0) (fun _ => 1) 0 0 = 1 ∧
    rnn_step_spec_formula (R := ℚ) (N := 1) (M := 1) (D := 1) (H := 1)
        (fun x => x / (1 + |x|)) (fun _ _ => 0) (fun _ _ => 0) (fun _ _ => 0)
        (fun _ _ => 0) (fun _ _ => 0) (fun _ _ => 0) (fun _ => 1) 0 0 = 1 / 2 := by
  refine ⟨?_, ?_⟩ <;>
    norm_num [rnn_step_forward, rnn_step_spec_formula, matmul, Fin.sum_univ_one]

/-- C5 (amended): init_lstm with use_dropout = False is independent of the
random dropout mask, hence deterministic in its tensor inputs. -/
theorem init_lstm_no_dropout_mask_independent (tanh : R → R) {N D H K : ℕ}
    (X : Fin N → Fin D → R) (W1 : Fin D → Fin H → R) (b1 : Fin H → R)
    (W2 : Fin H → Fin K → R) (b2 : Fin K → R)
    (m1 m2 : Fin N → Fin H → Bool) :
    init_lstm tanh X W1 b1 W2 b2 false m1 = init_lstm tanh X W1 b1 W2 b2 false m2 :=
  rfl

/-- C5 (counterexample): with use_dropout = True, two calls on the same
tensors but different random dropout draws return different outputs. -/
theorem init_lstm_dropout_random :
    init_lstm (R := ℚ) (N := 1) (D := 1) (H := 1) (K := 1) (fun x => x)
        (fun _ _ => 1) (fun _ _ => 1) (fun _ => 0) (fun _ _ => 1) (fun _ => 0)
        true (fun _ _ => true) ≠
      init_lstm (R := ℚ) (N := 1) (D := 1) (H := 1) (K := 1) (fun x => x)
        (fun _ _ => 1) (fun _ _ => 1) (fun _ => 0) (fun _ _ => 1) (fun _ => 0)
        true (fun _ _ => false) := by
  intro h
  have h0 := congrFun (congrFun h 0) 0
  simp [init_lstm, affine_relu_forward, affine_tanh_forward, affine_forward,
    dropout, relu, matmul, Fin.sum_univ_one] at h0

/-- C2: attention_forward returns alpha as the row-wise softmax of the
scores obtained by applying W_att to relu(X_proj + prev_h·W_proj_h + b_proj)
(the hidden-state projection broadcast over the L positions), and
context[n] = Σ_l alpha[n, l] · X[n, l]. -/
theorem attention_forward_spec (exp : R → R) {N L D H : ℕ}
    (X X_proj : Fin N → Fin L → Fin D → R) (prev_h : Fin N → Fin H → R)
    (W_proj_h : Fin H → Fin D → R) (b_proj : Fin D → R)
    (W_att : Fin D → Fin 1 → R) (n : Fin N) (l : Fin L) (d : Fin D) :
    (attention_forward exp X X_proj prev_h W_proj_h b_proj W_att).2 n l =
      softmaxRow exp (fun l2 => ∑ k,
        relu (X_proj n l2 k + (∑ x, prev_h n x * W_proj_h x k) + b_proj k) *
          W_att k 0) l ∧
    (attention_forward exp X X_proj prev_h W_proj_h b_proj W_att).1 n d =
      ∑ l2, (attention_forward exp X X_proj prev_h W_proj_h b_proj W_att).2 n l2 *
        X n l2 d := by
  constructor
  · simp [attention_forward, softmaxRow, matmul, unflatten1_flattenIdx,
      unflatten2_flattenIdx]
  · exact attention_context_apply exp X X_proj prev_h W_proj_h b_proj W_att n d

/-- C9: each row of alpha is a probability distribution (strictly positive
entries summing to 1) whenever exp is positive everywhere, and context[n]
is the corresponding convex combination of the L feature vectors. -/
theorem attention_alpha_prob (exp : R → R) {N L D H : ℕ}
    (hexp : ∀ x : R, 0 < exp x)
    (X X_proj : Fin N → Fin L → Fin D → R) (prev_h : Fin N → Fin H → R)
    (W_proj_h : Fin H → Fin D → R) (b_proj : Fin D → R)
    (W_att : Fin D → Fin 1 → R) (n : Fin N) (l : Fin L) (d : Fin D) :
    0 < (attention_forward exp X X_proj prev_h W_proj_h b_proj W_att).2 n l ∧
    (∑ l2, (attention_forward exp X X_proj prev_h W_proj_h b_proj W_att).2 n l2) = 1 ∧
    (attention_forward exp X X_proj prev_h W_proj_h b_proj W_att).1 n d =
      ∑ l2, (attention_forward exp X X_proj prev_h W_proj_h b_proj W_att).2 n l2 *
        X n l2 d := by
  have hpos : ∀ (v : Fin L → R) (i : Fin L), 0 < softmaxRow exp v i := fun v i =>
    div_pos (hexp _) (Finset.sum_pos (fun j _ => hexp _) ⟨i, Finset.mem_univ i⟩)
  have hsum : ∀ v : Fin L → R, (∑ i, softmaxRow exp v i) = 1 := by
    intro v
    have hS : (∑ j, exp (v j)) ≠ 0 :=
      ne_of_gt (Finset.sum_pos (fun j _ => hexp _) ⟨l, Finset.mem_univ l⟩)
    simp only [softmaxRow]
    rw [← Finset.sum_div]
    exact div_self hS
  refine ⟨?_, ?_,
    attention_context_apply exp X X_proj prev_h W_proj_h b_proj W_att n d⟩
  · simp only [attention_forward]
    exact hpos _ l
  · simp only [attention_forward]
    exact hsum _

/-- C9 witness: the probability-distribution property of alpha at a concrete
one-by-one input over ℚ with the positive stand-in exp x = 1. -/
theorem attention_alpha_prob_witness :
    0 < (attention_forward (R := ℚ) (N := 1) (L := 1) (D := 1) (H := 1)
        (fun _ => 1) (fun _ _ _ => 1) (fun _ _ _ => 1) (fun _ _ => 1)
        (fun _ _ => 1) (fun _ => 1) (fun _ _ => 1)).2 0 0 ∧
    (∑ l2, (attention_forward (R := ℚ) (N := 1) (L := 1) (D := 1) (H := 1)
        (fun _ => 1) (fun _ _ _ => 1) (fun _ _ _ => 1) (fun _ _ => 1)
        (fun _ _ => 1) (fun _ => 1) (fun _ _ => 1)).2 0 l2) = 1 ∧
    (attention_forward (R := ℚ) (N := 1) (L := 1) (D := 1) (H := 1)
        (fun _ => 1) (fun _ _ _ => 1) (fun _ _ _ => 1) (fun _ _ => 1)
        (fun _ _ => 1) (fun _ => 1) (fun _ _ => 1)).1 0 0 =
      ∑ l2, (attention_forward (R := ℚ) (N := 1) (L := 1) (D := 1) (H := 1)
        (fun _ => 1) (fun _ _ _ => 1) (fun _ _ _ => 1) (fun _ _ => 1)
        (fun _ _ => 1) (fun _ => 1) (fun _ _ => 1)).2 0 l2 * 1 :=
  attention_alpha_prob (fun _ => 1) (fun _ => one_pos) (fun _ _ _ => 1)
    (fun _ _ _ => 1) (fun _ _ => 1) (fun _ _ => 1) (fun _ => 1) (fun _ _ => 1)
    0 0 0

/-- C3: softmax_loss sums, over exactly the rows where the mask is true,
the negative log of the softmax probability of the ground-truth index;
masked-out rows contribute zero. -/
theorem softmax_loss_spec (exp log : R → R) {N V : ℕ} (X : Fin N → Fin V → R)
    (y : Fin N → Fin V) (mask : Fin N → Bool) :
    softmax_loss exp log X y mask =
      ∑ i, if mask i then -(log (softmaxRow exp (X i) (y i))) else 0 := by
  unfold softmax_loss
  refine Finset.sum_congr rfl fun i _ => ?_
  rw [xent_one_hot]
  by_cases h : mask i <;> simp [h]

/-- C10: the loss is independent of the masked-out rows: inputs that agree
wherever the mask is true give equal loss, and an all-false mask gives
loss 0. -/
theorem softmax_loss_mask_agnostic (exp log : R → R) {N V : ℕ}
    (X X2 : Fin N → Fin V → R) (y y2 : Fin N → Fin V) (mask : Fin N → Bool)
    (hagree : ∀ i, mask i = true → X i = X2 i ∧ y i = y2 i) :
    softmax_loss exp log X y mask = softmax_loss exp log X2 y2 mask ∧
    ((∀ i, mask i = false) → softmax_loss exp log X y mask = 0) := by
  constructor
  · unfold softmax_loss
    refine Finset.sum_congr rfl fun i _ => ?_
    by_cases h : mask i
    · obtain ⟨h1, h2⟩ := hagree i h
      rw [h1, h2]
    · simp [h]
  · intro hall
    unfold softmax_loss
    refine Finset.sum_eq_zero fun i _ => ?_
    simp [hall i]

/-- C10 witness: instantiated at a concrete one-row input where the mask is
false everywhere and the two score matrices differ. -/
theorem softmax_loss_mask_agnostic_witness :
    softmax_loss (R := ℚ) (N := 1) (V := 1) (fun _ => 1) (fun _ => 0)
        (fun _ _ => 0) (fun _ => 0) (fun _ => false) =
      softmax_loss (R := ℚ) (N := 1) (V := 1) (fun _ => 1) (fun _ => 0)
        (fun _ _ => 1) (fun _ => 0) (fun _ => false) ∧
    ((∀ _ : Fin 1, false = false) →
      softmax_loss (R := ℚ) (N := 1) (V := 1) (fun _ => 1) (fun _ => 0)
        (fun _ _ => 0) (fun _ => 0) (fun _ => false) = 0) :=
  softmax_loss_mask_agnostic (fun _ => 1) (fun _ => 0) (fun _ _ => 0)
    (fun _ _ => 1) (fun _ => 0) (fun _ => 0) (fun _ => false)
    (fun _ h => absurd h (by simp))

end Layers
